import Mathlib

/-!
Shallow embedding of the shot-detection pipeline of
`src/python/detect_shots.py` (10 m air-pistol target scanner).

Conventions of the embedding:

* Python floats are modelled by `ℚ`; decimal literals are written as exact
  fractions (`10.9 ↦ 109/10`).  `np.pi` is a double-precision constant in the
  source; it is modelled by the exact rational value of that double,
  `npPi = 884279719003555 / 2^48`.
* `np.hypot` (a real square root, irrational in general) appears in the
  source only (a) to compare a Euclidean distance against a nonnegative
  bound — embedded as the equivalent comparison of squares — and (b) to turn
  a normalized offset `(dx, dy)` into the radial `dist_ratio` fed to the
  scoring table.  For (b) the embedding abstracts the norm as an explicit
  function argument `norm : ℚ → ℚ → ℚ`; every theorem below either holds for
  all `norm` or constrains the value `norm dx dy` exactly as the claim does.
* `int(x)` (Python truncation toward zero) is `pyInt`; image data, OpenCV
  mask/contour extraction and Hough-circle detection are boundary inputs:
  the lists of circles, contours and raw hole centres they produce are the
  inputs of the embedded functions, which model all the arithmetic, filtering,
  clustering, scoring, ordering and fallback logic the source performs on
  them.
-/

section DetectShots

attribute [local semireducible] Rat.add Rat.mul Rat.sub Rat.inv

/-- Python `int(x)`: truncation toward zero. -/
def pyInt (q : ℚ) : ℤ := if 0 ≤ q then ⌊q⌋ else ⌈q⌉

/-- The exact rational value of the double-precision constant `np.pi`. -/
def npPi : ℚ := 884279719003555 / 281474976710656

/-- The dict `OFFICIAL_RING_DIAMETERS_MM`, in its insertion order
(score 10 down to score 1, diameters in millimetres). -/
def OFFICIAL_RING_DIAMETERS_MM : List (ℕ × ℚ) :=
  [(10, 23/2), (9, 55/2), (8, 87/2), (7, 119/2), (6, 151/2),
   (5, 183/2), (4, 215/2), (3, 247/2), (2, 279/2), (1, 311/2)]

/-- The descending order used by `build_ring_ratio_thresholds`:
`sorted(..., key=lambda item: item[0], reverse=True)`. -/
def ringScoreGE (a b : ℕ × ℚ) : Prop := b.1 ≤ a.1

instance : DecidableRel ringScoreGE := fun a b => inferInstanceAs (Decidable (b.1 ≤ a.1))

/-- `build_ring_ratio_thresholds`: each ring's radius as a fraction of the
outer (score-1) ring radius, sorted by descending score.  Python `sorted` is
a stable sort, modelled by `List.insertionSort`. -/
def build_ring_ratio_thresholds : List (ℕ × ℚ) :=
  let outer_radius_mm : ℚ := ((OFFICIAL_RING_DIAMETERS_MM.lookup 1).getD 0) / 2
  List.insertionSort ringScoreGE
    (OFFICIAL_RING_DIAMETERS_MM.map fun p => (p.1, (p.2 / 2) / outer_radius_mm))

/-- The module-level constant `RING_RATIO_THRESHOLDS`. -/
def RING_RATIO_THRESHOLDS : List (ℕ × ℚ) := build_ring_ratio_thresholds

/-- The `for score_val, threshold in RING_RATIO_THRESHOLDS` loop of
`compute_scores_from_normalized`: `ring_score` starts at `0.0` and the first
entry with `dist ≤ threshold` wins (`break`). -/
def ringScoreScan : List (ℕ × ℚ) → ℚ → ℚ
  | [], _ => 0
  | p :: rest, dist => if dist ≤ p.2 then (p.1 : ℚ) else ringScoreScan rest dist

/-- Body of `compute_scores_from_normalized` once `dist_ratio = np.hypot(dx, dy)`
has been formed: returns `(ring_score, decimal_score, is_inner_ten)`. -/
def computeScoresOfDist (dist : ℚ) : ℚ × ℚ × Bool :=
  if 1 < dist then (0, 0, false)
  else
    let ring_score := ringScoreScan RING_RATIO_THRESHOLDS dist
    let decimal_score := max 0 (109/10 - dist * (109/10))
    (ring_score, decimal_score, decide (21/2 < decimal_score))

/-- `compute_scores_from_normalized(dx, dy)` with the Euclidean norm
`np.hypot` abstracted as `norm`. -/
def compute_scores_from_normalized (norm : ℚ → ℚ → ℚ) (dx dy : ℚ) : ℚ × ℚ × Bool :=
  computeScoresOfDist (norm dx dy)

/-- The module-level constant `MAX_SHOTS_PER_TARGET` (hard shot cap). -/
def MAX_SHOTS_PER_TARGET : ℕ := 15

/-- A shot record as the Python dicts each strategy appends: all of `score`,
`ringScore`, `decimalScore`, normalized position, `scoreSource` (the source's
literal strings `"white-marker"`, `"computed"`, `"fallback"`) and
`isInnerTen`. -/
structure Shot where
  score : ℚ
  ringScore : ℚ
  decimalScore : ℚ
  positionX : ℚ
  positionY : ℚ
  scoreSource : String
  isInnerTen : Bool
deriving DecidableEq

/-- `limit_shots(shots, max_shots)`: keep at most `max_shots` entries by
slicing (the list is sorted by the caller). -/
def limit_shots (shots : List Shot) (max_shots : ℕ) : List Shot :=
  if shots.length ≤ max_shots then shots else shots.take max_shots

/-- A circle candidate after the source's integer rounding
(`np.uint16(np.around(...))` resp. `np.round(...).astype("int")`):
`(x, y, r)` in pixels. -/
abbrev PixCircle := ℤ × ℤ × ℤ

/-- `detect_target_circle`: of the Hough result it keeps `circles[0][0]`, the
first candidate.  The empty list models `cv2.HoughCircles` returning `None`. -/
def detect_target_circle (circles : List PixCircle) : Option PixCircle :=
  circles.head?

/-- The legacy selection key: squared pixel distance of a circle's centre to
the image centre `(w/2, h/2)` (the source compares squared distances). -/
def circleDistKey (w h : ℤ) (c : PixCircle) : ℚ :=
  ((c.1 : ℚ) - (w : ℚ)/2)^2 + ((c.2.1 : ℚ) - (h : ℚ)/2)^2

/-- Python `min(xs, key=key)`: the first element attaining the minimal key
(the running best is replaced only on a strictly smaller key). -/
def pyMinBy {α : Type} (key : α → ℚ) (x : α) : List α → α
  | [] => x
  | y :: ys => pyMinBy key (if key y < key x then y else x) ys

/-- The target-locating logic of `detect_shots` (steps at lines 585–620): the
primary helper's first circle if any; otherwise the legacy Hough pass, choosing
the candidate closest to the image centre; otherwise the deterministic
fallback `(w/2, h/2, 0.35 * min h w)`. -/
def locateTarget (w h : ℤ) (primary legacy : List PixCircle) : ℚ × ℚ × ℚ :=
  match detect_target_circle primary with
  | some c => ((c.1 : ℚ), (c.2.1 : ℚ), (c.2.2 : ℚ))
  | none =>
      match legacy with
      | [] => ((w : ℚ)/2, (h : ℚ)/2, (min h w : ℚ) * (35/100))
      | c :: cs =>
          let chosen := pyMinBy (circleDistKey w h) c cs
          ((chosen.1 : ℚ), (chosen.2.1 : ℚ), (chosen.2.2 : ℚ))

/-- `estimate_pellet_radius_px`: `max(6, int(target_radius_px * 0.025))`. -/
def estimate_pellet_radius_px (target_radius_px : ℚ) : ℤ :=
  max 6 (pyInt (target_radius_px * (25/1000)))

/-- A contour as the strategies consume it: its `cv2.contourArea`, its
`cv2.arcLength` perimeter and its `cv2.minEnclosingCircle` centre `(x, y)`.
These measurements are boundary inputs; every comparison made on them is
embedded. -/
structure Contour where
  area : ℚ
  perimeter : ℚ
  x : ℚ
  y : ℚ
deriving DecidableEq

/-- The shot dict built by `detect_markers_using_white` for a kept contour:
`score` is the ring score, `scoreSource` is `"white-marker"`. -/
def markerShot (norm : ℚ → ℚ → ℚ) (cx cy target_r : ℚ) (c : Contour) : Shot :=
  let norm_x := (c.x - cx) / target_r
  let norm_y := (c.y - cy) / target_r
  let sc := compute_scores_from_normalized norm norm_x norm_y
  { score := sc.1, ringScore := sc.1, decimalScore := sc.2.1,
    positionX := norm_x, positionY := norm_y,
    scoreSource := "white-marker", isInnerTen := sc.2.2 }

/-- `expected_marker_area = np.pi * pellet_radius_px ** 2` of
`detect_markers_using_white`. -/
def expected_marker_area (target_r : ℚ) : ℚ :=
  npPi * ((estimate_pellet_radius_px target_r : ℤ) : ℚ) ^ 2

/-- `min_area = expected_marker_area * 0.45`. -/
def marker_min_area (target_r : ℚ) : ℚ := expected_marker_area target_r * (45/100)

/-- `max_area = expected_marker_area * 2.5`. -/
def marker_max_area (target_r : ℚ) : ℚ := expected_marker_area target_r * (5/2)

/-- The body of the contour loop of `detect_markers_using_white`
(lines 223–258): a contour is dropped unless its area lies within
`[min_area, max_area]`, its perimeter is nonzero, its circularity
`4π·area/perimeter²` is at least `0.5` and its centre is within
`1.2 × target_r` of the target centre (`np.hypot > 1.2·r` is embedded as the
equivalent comparison of squares, the bound being nonnegative for the
nonnegative radii the pipeline produces); a kept contour appends one shot. -/
def markerStep (norm : ℚ → ℚ → ℚ) (cx cy target_r : ℚ) (c : Contour) :
    Option Shot :=
  if c.area < marker_min_area target_r ∨ marker_max_area target_r < c.area then none
  else if c.perimeter = 0 then none
  else if 4 * npPi * c.area / (c.perimeter * c.perimeter) < 1/2 then none
  else if ((12/10) * target_r)^2 < (c.x - cx)^2 + (c.y - cy)^2 then none
  else some (markerShot norm cx cy target_r c)

/-- `detect_markers_using_white` from the point where the marker mask's
contours are in hand (line 208): no contours → no shots, else run the contour
loop.  (The mask construction itself — paper sampling, thresholding,
morphology — is boundary image processing producing `cnts`.) -/
def detect_markers_using_white (norm : ℚ → ℚ → ℚ) (cx cy target_r : ℚ)
    (cnts : List Contour) : List Shot :=
  if cnts = [] then []
  else cnts.filterMap (markerStep norm cx cy target_r)

/-- A blob covering well over 60% of a radius-400 target's circular area
(`0.6·π·400² ≈ 301 593 < 400 000`), centred on the target. -/
def oversizedBlob : Contour := ⟨400000, 100, 0, 0⟩

/-- A plausible single marker on a radius-400 target: area 300 within
`[0.45, 2.5] × π·10²`, circularity `4π·300/62² ≈ 0.98`, at the centre. -/
def regularMarker : Contour := ⟨300, 62, 0, 0⟩

/-- A cluster of `merge_close_points`: running-average centroid and count, as
the source's mutable `[x, y, count]` triple. -/
structure Cluster where
  x : ℚ
  y : ℚ
  n : ℕ
deriving DecidableEq

/-- One iteration of the `for x, y in points` loop of `merge_close_points`:
fold the point into the first cluster whose centroid is within the threshold
(squared comparison, as in the source), updating the running average and
count, else append a fresh cluster at the end. -/
def foldPointIntoClusters (min_dist_sq px py : ℚ) : List Cluster → List Cluster
  | [] => [⟨px, py, 1⟩]
  | c :: rest =>
      if (px - c.x)^2 + (py - c.y)^2 ≤ min_dist_sq then
        ⟨(c.x * (c.n : ℚ) + px) / ((c.n : ℚ) + 1),
         (c.y * (c.n : ℚ) + py) / ((c.n : ℚ) + 1), c.n + 1⟩ :: rest
      else c :: foldPointIntoClusters min_dist_sq px py rest

/-- `merge_close_points(points, min_dist)`: greedy single-pass clustering. -/
def merge_close_points (points : List (ℚ × ℚ)) (min_dist : ℚ) : List Cluster :=
  points.foldl (fun merged p => foldPointIntoClusters (min_dist^2) p.1 p.2 merged) []

/-- Total count over the clusters. -/
def sumCounts (clusters : List Cluster) : ℕ :=
  (clusters.map Cluster.n).sum

/-- The shot dict built by `detect_shots_two_pass` for a merged cluster:
`score` is the ring score, `scoreSource` is `"computed"`. -/
def twoPassShot (norm : ℚ → ℚ → ℚ) (x0 y0 : ℤ) (cx cy target_r : ℚ)
    (c : Cluster) : Shot :=
  let x_global := c.x + (x0 : ℚ)
  let y_global := c.y + (y0 : ℚ)
  let norm_x := (x_global - cx) / target_r
  let norm_y := (y_global - cy) / target_r
  let sc := compute_scores_from_normalized norm norm_x norm_y
  { score := sc.1, ringScore := sc.1, decimalScore := sc.2.1,
    positionX := norm_x, positionY := norm_y,
    scoreSource := "computed", isInnerTen := sc.2.2 }

/-- The shot emission of `detect_shots_two_pass` (lines 527–549): each merged
cluster emits `max(1, round(count))` identical shots at its centroid. -/
def twoPassEmit (norm : ℚ → ℚ → ℚ) (x0 y0 : ℤ) (cx cy target_r : ℚ)
    (merged_points : List Cluster) : List Shot :=
  (merged_points.map fun c =>
    List.replicate (max 1 c.n) (twoPassShot norm x0 y0 cx cy target_r c)).flatten

/-- `detect_shots_two_pass(gray, cx, cy, target_r)`: crop the region of
interest (empty region → no shots), merge the raw hole centres found by the
two masked hole searches (boundary input `raw_holes`, roi-relative), and emit
the scored shots. -/
def detect_shots_two_pass (norm : ℚ → ℚ → ℚ) (w h : ℤ) (cx cy target_r : ℚ)
    (raw_holes : List (ℚ × ℚ)) : List Shot :=
  let x0 := max (pyInt (cx - target_r)) 0
  let y0 := max (pyInt (cy - target_r)) 0
  let x1 := min (pyInt (cx + target_r)) w
  let y1 := min (pyInt (cy + target_r)) h
  if x1 ≤ x0 ∨ y1 ≤ y0 then []
  else
    let pellet_radius_px : ℚ := (estimate_pellet_radius_px target_r : ℚ)
    let merged_points := merge_close_points raw_holes (pellet_radius_px * (8/10))
    twoPassEmit norm x0 y0 cx cy target_r merged_points

/-- The bright-blob threshold cascade of `detect_shots` (lines 636–648): the
contour lists produced at cut-offs 250, 245, 240 are tried in order and the
first with at least 3 contours wins; otherwise no contours. -/
def selectBrightContours (candidates : List (List Contour)) : List Contour :=
  match candidates.find? (fun cnts => 3 ≤ cnts.length) with
  | some cnts => cnts
  | none => []

/-- The bright-blob fallback loop of `detect_shots` (lines 650–681): area
within `[0.0005, 0.02] × target_r²`, centre within `1.5 × target_r`; `score`
is the decimal score, `scoreSource` is `"fallback"`. -/
def fallbackBrightShots (norm : ℚ → ℚ → ℚ) (cx cy target_r : ℚ)
    (cnts : List Contour) : List Shot :=
  let min_area := target_r^2 * (5/10000)
  let max_area := target_r^2 * (2/100)
  cnts.filterMap fun c =>
    if c.area < min_area ∨ max_area < c.area then none
    else if ((15/10) * target_r)^2 < (c.x - cx)^2 + (c.y - cy)^2 then none
    else
      let norm_x := (c.x - cx) / target_r
      let norm_y := (c.y - cy) / target_r
      let sc := compute_scores_from_normalized norm norm_x norm_y
      some { score := sc.2.1, ringScore := sc.1, decimalScore := sc.2.1,
             positionX := norm_x, positionY := norm_y,
             scoreSource := "fallback", isInnerTen := sc.2.2 }

/-- The final sort of `detect_shots` (line 684):
`shots.sort(key=lambda s: abs(s.get("ringScore", 0.0) - 10.0))` — every shot
dict carries `ringScore`, so the key is `|ringScore - 10|` and nothing else.
Python's `list.sort` is stable; it is modelled by the stable
`List.insertionSort`. -/
def shotSortKeyLE (a b : Shot) : Prop :=
  |a.ringScore - 10| ≤ |b.ringScore - 10|

instance : DecidableRel shotSortKeyLE := fun a b =>
  inferInstanceAs (Decidable (|a.ringScore - 10| ≤ |b.ringScore - 10|))

def sortShotsByTen (shots : List Shot) : List Shot :=
  List.insertionSort shotSortKeyLE shots

/-- The boundary inputs one image run consumes: image size, the two Hough
passes' candidate circles, the marker-mask contours, the raw hole centres of
the two-pass search and the bright-threshold cascade's contour lists. -/
structure PipelineInput where
  width : ℤ
  height : ℤ
  primaryCircles : List PixCircle
  legacyCircles : List PixCircle
  markerContours : List Contour
  rawHoles : List (ℚ × ℚ)
  brightCandidates : List (List Contour)

/-- `detect_shots` after image loading: locate the target, run the strategy
cascade (white markers, then two-pass holes, then bright blobs), sort by
closeness of the ring score to 10 and cap at `MAX_SHOTS_PER_TARGET`. -/
def detect_shots_core (norm : ℚ → ℚ → ℚ) (inp : PipelineInput) : List Shot :=
  let g := locateTarget inp.width inp.height inp.primaryCircles inp.legacyCircles
  let cx := g.1
  let cy := g.2.1
  let target_r := g.2.2
  let marker_shots := detect_markers_using_white norm cx cy target_r inp.markerContours
  let shots :=
    if marker_shots = [] then
      let two_pass :=
        detect_shots_two_pass norm inp.width inp.height cx cy target_r inp.rawHoles
      if two_pass = [] then
        fallbackBrightShots norm cx cy target_r
          (selectBrightContours inp.brightCandidates)
      else two_pass
    else marker_shots
  limit_shots (sortShotsByTen shots) MAX_SHOTS_PER_TARGET

/-- `detect_shots(image_path)` including its image load: `cv2.imread`
returning `None` (modelled by `none`) raises
`RuntimeError(f"Could not read image: {image_path}")`; the raised exception is
the `Except.error` value. -/
def detect_shots_run (norm : ℚ → ℚ → ℚ) (image_path : String)
    (img : Option PipelineInput) : Except String (List Shot) :=
  match img with
  | none => Except.error ("Could not read image: " ++ image_path)
  | some inp => Except.ok (detect_shots_core norm inp)

/-- The JSON-shaped result `main` prints: a shot list, and an `error` field
present exactly on failure. -/
structure ResultPayload where
  shots : List Shot
  error : Option String
deriving DecidableEq

/-- The `try/except` of `main` (lines 713–721): a successful run prints
`{"shots": shots}`; any raised exception is caught and printed as
`{"shots": [], "error": str(e)}` — nothing propagates. -/
def main_output (r : Except String (List Shot)) : ResultPayload :=
  match r with
  | Except.ok shots => ⟨shots, none⟩
  | Except.error e => ⟨[], some e⟩

/-- `main` for one image: load result in, printed payload out. -/
def scan_main (norm : ℚ → ℚ → ℚ) (image_path : String)
    (img : Option PipelineInput) : ResultPayload :=
  main_output (detect_shots_run norm image_path img)

/-- Modelled from the spec's words, for comparison with the code's sort: the
spec claims the final list is ordered by ascending `|ringScore − 10|` with
ties broken by the decimal score (the entry closer to a perfect shot — the
larger decimal score — first). -/
def specClaimedShotOrder (a b : Shot) : Prop :=
  |a.ringScore - 10| < |b.ringScore - 10| ∨
    (|a.ringScore - 10| = |b.ringScore - 10| ∧ b.decimalScore ≤ a.decimalScore)

instance : DecidableRel specClaimedShotOrder := fun _ _ =>
  inferInstanceAs (Decidable (_ ∨ _))

instance : IsTotal Shot shotSortKeyLE := ⟨fun _ _ => le_total _ _⟩

instance : IsTrans Shot shotSortKeyLE := ⟨fun _ _ _ => le_trans⟩

/-- Two shots on the 9 ring with different decimal scores (9.0 and 9.4), used
to exhibit the absent decimal tie-break. -/
def nineRingLowDecimal : Shot := ⟨9, 9, 9, 0, 0, "computed", false⟩

def nineRingHighDecimal : Shot := ⟨9, 9, 47/5, 0, 0, "computed", false⟩

/-- The ring table evaluates to the ten ratio thresholds, in descending score
order (hence in ascending threshold order). -/
lemma ring_table_eval : RING_RATIO_THRESHOLDS =
    [(10, 23/311), (9, 55/311), (8, 87/311), (7, 119/311), (6, 151/311),
     (5, 183/311), (4, 215/311), (3, 247/311), (2, 279/311), (1, 1)] := by decide

/-- Scores along the ring table are descending. -/
lemma ring_table_sorted :
    RING_RATIO_THRESHOLDS.Pairwise (fun a b => b.1 ≤ a.1) := by decide

/-- A scan over a table whose scores are all bounded by `s` yields at most `s`. -/
lemma ringScoreScan_le_bound (s : ℕ) (L : List (ℕ × ℚ))
    (hb : ∀ p ∈ L, p.1 ≤ s) (d : ℚ) : ringScoreScan L d ≤ (s : ℚ) := by
  induction L with
  | nil => simp [ringScoreScan]
  | cons p tl ih =>
      by_cases h : d ≤ p.2
      · simpa [ringScoreScan, h] using Nat.cast_le.mpr (hb p (by simp))
      · simpa [ringScoreScan, h] using ih fun q hq => hb q (by simp [hq])

/-- The descending linear scan is antitone in the distance, for a table with
descending scores. -/
lemma ringScoreScan_anti {L : List (ℕ × ℚ)}
    (hL : L.Pairwise (fun a b => b.1 ≤ a.1)) {r1 r2 : ℚ} (h : r1 ≤ r2) :
    ringScoreScan L r2 ≤ ringScoreScan L r1 := by
  induction L with
  | nil => exact le_rfl
  | cons p tl ih =>
      obtain ⟨hp, htl⟩ := List.pairwise_cons.mp hL
      by_cases h1 : r1 ≤ p.2
      · by_cases h2 : r2 ≤ p.2
        · simp [ringScoreScan, h1, h2]
        · simp only [ringScoreScan, h1, h2, if_true, if_false]
          exact ringScoreScan_le_bound p.1 tl hp r2
      · have h2 : ¬ r2 ≤ p.2 := fun hc => h1 (le_trans h hc)
        simp only [ringScoreScan, h1, h2, if_false]
        exact ih htl

/-- C1: a normalized position whose radial distance `np.hypot dx dy` exceeds
`1.0` is scored `ring_score = 0`, `decimal_score = 0`, `is_inner_ten = false`;
in particular its ring score is `0`. -/
theorem C1_beyond_outer_ring_scores_zero (norm : ℚ → ℚ → ℚ) (dx dy : ℚ)
    (h : 1 < norm dx dy) :
    compute_scores_from_normalized norm dx dy = (0, 0, false) := by
  unfold compute_scores_from_normalized computeScoresOfDist
  rw [if_pos h]

/-- Witness for C1 at `(dx, dy) = (2, 0)`, where `np.hypot 2 0 = |2| = 2`. -/
theorem C1_beyond_outer_ring_scores_zero_witness :
    (1:ℚ) < |(2:ℚ)| ∧
      compute_scores_from_normalized (fun dx _ => |dx|) 2 0 = (0, 0, false) :=
  ⟨by norm_num, C1_beyond_outer_ring_scores_zero (fun dx _ => |dx|) 2 0 (by norm_num)⟩

/-- C2: a distance exactly equal to a ring's ratio threshold (all thresholds
lie in `[0,1]`) is assigned that ring's own score — the first entry of the
descending 10→1 scan with `threshold ≥ dist` wins, so an exact boundary point
scores the inner (higher) ring. -/
theorem C2_boundary_scores_inner_ring :
    ∀ p ∈ RING_RATIO_THRESHOLDS,
      0 ≤ p.2 ∧ p.2 ≤ 1 ∧ (computeScoresOfDist p.2).1 = (p.1 : ℚ) := by decide

/-- Witness for C2 at the 10-ring/9-ring boundary `23/311`. -/
theorem C2_boundary_scores_inner_ring_witness :
    0 ≤ (23/311 : ℚ) ∧ (23/311 : ℚ) ≤ 1 ∧
      (computeScoresOfDist (23/311)).1 = ((10:ℕ) : ℚ) :=
  C2_boundary_scores_inner_ring (10, 23/311) (by decide)

/-- C3: the score mapping is monotonically non-increasing in the radial
distance: for ratios `r1 < r2` in `[0,1]` both the ring score and the decimal
score at `r2` are at most those at `r1`. -/
theorem C3_score_mapping_antitone (r1 r2 : ℚ) (_h0 : 0 ≤ r1) (h12 : r1 < r2)
    (h2 : r2 ≤ 1) :
    (computeScoresOfDist r2).1 ≤ (computeScoresOfDist r1).1 ∧
      (computeScoresOfDist r2).2.1 ≤ (computeScoresOfDist r1).2.1 := by
  have hn1 : ¬ 1 < r1 := by linarith
  have hn2 : ¬ 1 < r2 := by linarith
  simp only [computeScoresOfDist, if_neg hn1, if_neg hn2]
  refine ⟨ringScoreScan_anti ring_table_sorted h12.le, ?_⟩
  exact max_le_max le_rfl (by linarith)

/-- Witness for C3 at `r1 = 0`, `r2 = 1`. -/
theorem C3_score_mapping_antitone_witness :
    (computeScoresOfDist 1).1 ≤ (computeScoresOfDist 0).1 ∧
      (computeScoresOfDist 1).2.1 ≤ (computeScoresOfDist 0).2.1 :=
  C3_score_mapping_antitone 0 1 (by norm_num) (by norm_num) (by norm_num)

/-- C7: the run for one image always yields a structurally valid payload: an
undecodable image (`cv2.imread` → `None`) produces the payload with an empty
shot list and the populated error string, and whenever the error field of the
emitted payload is populated the shot list is empty.  `scan_main` is a total
function — the `try/except` in `main` converts every raised exception into
the error field, so no exception crosses the output boundary. -/
theorem C7_failure_emits_wellformed_payload (norm : ℚ → ℚ → ℚ)
    (image_path : String) (img : Option PipelineInput) :
    (img = none →
      scan_main norm image_path img =
        ⟨[], some ("Could not read image: " ++ image_path)⟩) ∧
    ((scan_main norm image_path img).error ≠ none →
      (scan_main norm image_path img).shots = []) := by
  cases img <;> simp [scan_main, detect_shots_run, main_output]

/-- C10: the `score` field is strategy-dependent — white-marker and two-pass
shots carry `score = ringScore`, brightness-fallback shots carry
`score = decimalScore` (each with its strategy's `scoreSource` string). -/
theorem C10_score_field_matches_strategy (norm : ℚ → ℚ → ℚ)
    (cx cy target_r : ℚ) (marker_cnts bright_cnts : List Contour)
    (w h : ℤ) (raw_holes : List (ℚ × ℚ)) :
    (∀ s ∈ detect_markers_using_white norm cx cy target_r marker_cnts,
        s.score = s.ringScore ∧ s.scoreSource = "white-marker") ∧
    (∀ s ∈ detect_shots_two_pass norm w h cx cy target_r raw_holes,
        s.score = s.ringScore ∧ s.scoreSource = "computed") ∧
    (∀ s ∈ fallbackBrightShots norm cx cy target_r bright_cnts,
        s.score = s.decimalScore ∧ s.scoreSource = "fallback") := by
  refine ⟨?_, ?_, ?_⟩
  · intro s hs
    unfold detect_markers_using_white at hs
    split at hs
    · simp at hs
    · obtain ⟨c, -, hc⟩ := List.mem_filterMap.mp hs
      unfold markerStep at hc
      repeat' split at hc
      all_goals first
        | exact Option.noConfusion hc
        | (obtain rfl := Option.some.inj hc; exact ⟨rfl, rfl⟩)
  · intro s hs
    simp only [detect_shots_two_pass] at hs
    split at hs
    · simp at hs
    · unfold twoPassEmit at hs
      obtain ⟨l, hl, hsl⟩ := List.mem_flatten.mp hs
      obtain ⟨c, -, rfl⟩ := List.mem_map.mp hl
      obtain rfl := List.eq_of_mem_replicate hsl
      exact ⟨rfl, rfl⟩
  · intro s hs
    unfold fallbackBrightShots at hs
    obtain ⟨c, -, hc⟩ := List.mem_filterMap.mp hs
    repeat' split at hc
    all_goals first
      | exact Option.noConfusion hc
      | (obtain rfl := Option.some.inj hc; exact ⟨rfl, rfl⟩)

/-- Folding one point into the cluster list adds exactly one to the total
count. -/
lemma foldPoint_sumCounts (d px py : ℚ) (cs : List Cluster) :
    sumCounts (foldPointIntoClusters d px py cs) = sumCounts cs + 1 := by
  induction cs with
  | nil => simp [foldPointIntoClusters, sumCounts]
  | cons c rest ih =>
      by_cases h : (px - c.x)^2 + (py - c.y)^2 ≤ d
      · simp only [foldPointIntoClusters, if_pos h, sumCounts, List.map_cons,
          List.sum_cons]
        omega
      · simp only [foldPointIntoClusters, if_neg h, sumCounts, List.map_cons,
          List.sum_cons] at *
        omega

/-- Folding one point into the cluster list keeps every count at least 1. -/
lemma foldPoint_counts_pos (d px py : ℚ) (cs : List Cluster)
    (hpos : ∀ c ∈ cs, 1 ≤ c.n) :
    ∀ c ∈ foldPointIntoClusters d px py cs, 1 ≤ c.n := by
  induction cs with
  | nil => simp [foldPointIntoClusters]
  | cons c rest ih =>
      by_cases h : (px - c.x)^2 + (py - c.y)^2 ≤ d
      · simp only [foldPointIntoClusters, if_pos h]
        intro c' hc'
        rcases List.mem_cons.mp hc' with rfl | hc'
        · exact Nat.le_add_left 1 c.n
        · exact hpos c' (List.mem_cons_of_mem _ hc')
      · simp only [foldPointIntoClusters, if_neg h]
        intro c' hc'
        rcases List.mem_cons.mp hc' with rfl | hc'
        · exact hpos c' (List.mem_cons_self c' rest)
        · exact ih (fun q hq => hpos q (List.mem_cons_of_mem _ hq)) c' hc'

/-- The clustering fold conserves the total count, from any accumulator. -/
lemma mergeFold_sumCounts (d : ℚ) (pts : List (ℚ × ℚ)) :
    ∀ acc : List Cluster,
      sumCounts (pts.foldl (fun m p => foldPointIntoClusters d p.1 p.2 m) acc) =
        sumCounts acc + pts.length := by
  induction pts with
  | nil => intro acc; simp
  | cons p tl ih =>
      intro acc
      rw [List.foldl_cons, ih, foldPoint_sumCounts, List.length_cons]
      omega

/-- The clustering fold keeps every count at least 1, from any accumulator. -/
lemma mergeFold_counts_pos (d : ℚ) (pts : List (ℚ × ℚ)) :
    ∀ acc : List Cluster, (∀ c ∈ acc, 1 ≤ c.n) →
      ∀ c ∈ pts.foldl (fun m p => foldPointIntoClusters d p.1 p.2 m) acc, 1 ≤ c.n := by
  induction pts with
  | nil => intro acc hacc; simpa using hacc
  | cons p tl ih =>
      intro acc hacc
      rw [List.foldl_cons]
      exact ih _ (foldPoint_counts_pos _ _ _ _ hacc)

/-- C9: the deduplicator conserves multiplicity — the counts of
`merge_close_points` sum to the number of input points and are each at least
1, and downstream in `detect_shots_two_pass` every cluster of count `k`
yields exactly `k` shot records at its centroid (so the emitted list has one
shot per raw point). -/
theorem C9_dedup_conserves_multiplicity (points : List (ℚ × ℚ)) (min_dist : ℚ) :
    sumCounts (merge_close_points points min_dist) = points.length ∧
    (∀ c ∈ merge_close_points points min_dist, 1 ≤ c.n) ∧
    (∀ (norm : ℚ → ℚ → ℚ) (x0 y0 : ℤ) (cx cy target_r : ℚ),
      twoPassEmit norm x0 y0 cx cy target_r (merge_close_points points min_dist) =
        ((merge_close_points points min_dist).map fun c =>
          List.replicate c.n (twoPassShot norm x0 y0 cx cy target_r c)).flatten ∧
      (twoPassEmit norm x0 y0 cx cy target_r
          (merge_close_points points min_dist)).length = points.length) := by
  have hsum : sumCounts (merge_close_points points min_dist) = points.length := by
    unfold merge_close_points
    rw [mergeFold_sumCounts]
    simp [sumCounts]
  have hpos : ∀ c ∈ merge_close_points points min_dist, 1 ≤ c.n := by
    unfold merge_close_points
    exact mergeFold_counts_pos _ _ [] (by simp)
  refine ⟨hsum, hpos, ?_⟩
  intro norm x0 y0 cx cy target_r
  have hmap : twoPassEmit norm x0 y0 cx cy target_r (merge_close_points points min_dist) =
      ((merge_close_points points min_dist).map fun c =>
        List.replicate c.n (twoPassShot norm x0 y0 cx cy target_r c)).flatten := by
    unfold twoPassEmit
    congr 1
    exact List.map_congr_left fun c hc => by rw [Nat.max_eq_right (hpos c hc)]
  refine ⟨hmap, ?_⟩
  rw [hmap, List.length_flatten, List.map_map]
  have : ((merge_close_points points min_dist).map
      (List.length ∘ fun c => List.replicate c.n (twoPassShot norm x0 y0 cx cy target_r c))) =
      (merge_close_points points min_dist).map Cluster.n := by
    exact List.map_congr_left fun c _ => by simp
  rw [this]
  exact hsum

/-- A point farther than the threshold from every centroid starts a fresh
cluster at the end of the list. -/
lemma foldPoint_far (d px py : ℚ) (cs : List Cluster)
    (hfar : ∀ c ∈ cs, d < (px - c.x)^2 + (py - c.y)^2) :
    foldPointIntoClusters d px py cs = cs ++ [⟨px, py, 1⟩] := by
  induction cs with
  | nil => simp [foldPointIntoClusters]
  | cons c rest ih =>
      have h : ¬ ((px - c.x)^2 + (py - c.y)^2 ≤ d) :=
        not_le.mpr (hfar c (List.mem_cons_self c rest))
      rw [foldPointIntoClusters, if_neg h,
        ih fun q hq => hfar q (List.mem_cons_of_mem _ hq)]
      simp

/-- On a list of pairwise-separated points (squared distances strictly above
the squared threshold) the clustering fold only appends singleton clusters. -/
lemma mergeFold_of_separated (d : ℚ) (pts : List (ℚ × ℚ))
    (hsep : pts.Pairwise fun p q => d < (p.1 - q.1)^2 + (p.2 - q.2)^2) :
    ∀ acc : List Cluster,
      (∀ p ∈ pts, ∀ c ∈ acc, d < (p.1 - c.x)^2 + (p.2 - c.y)^2) →
      pts.foldl (fun m p => foldPointIntoClusters d p.1 p.2 m) acc =
        acc ++ pts.map fun p => Cluster.mk p.1 p.2 1 := by
  induction pts with
  | nil => intro acc _; simp
  | cons p tl ih =>
      obtain ⟨hp, htl⟩ := List.pairwise_cons.mp hsep
      intro acc hacc
      rw [List.foldl_cons,
        foldPoint_far _ _ _ _ (hacc p (List.mem_cons_self p tl)),
        ih htl _ ?_, List.append_assoc, List.map_cons]
      · rfl
      · intro q hq c hc
        rcases List.mem_append.mp hc with hc | hc
        · exact hacc q (List.mem_cons_of_mem _ hq) c hc
        · have : c = Cluster.mk p.1 p.2 1 := by simpa using hc
          subst this
          have := hp q hq
          nlinarith [this]

/-- `merge_close_points` on pairwise-separated points emits each point as its
own singleton cluster. -/
lemma merge_close_points_of_separated (pts : List (ℚ × ℚ)) (min_dist : ℚ)
    (hsep : pts.Pairwise fun p q =>
      min_dist^2 < (p.1 - q.1)^2 + (p.2 - q.2)^2) :
    merge_close_points pts min_dist = pts.map fun p => Cluster.mk p.1 p.2 1 := by
  unfold merge_close_points
  rw [mergeFold_of_separated _ _ hsep [] (by simp)]
  rfl

/-- C8 counterexample: the greedy merge is not idempotent.  With threshold 9,
the points `(0,0), (10,0), (4,0)` merge into the clusters
`(2,0)×2, (10,0)×1`; re-running the merge on those two centroids folds them
into the single cluster `(6,0)×2` — the clusters change and further merging
occurs (the two produced centroids are 8 < 9 apart). -/
theorem C8_counterexample :
    merge_close_points [((0:ℚ), (0:ℚ)), (10, 0), (4, 0)] 9 =
      [⟨2, 0, 2⟩, ⟨10, 0, 1⟩] ∧
    (merge_close_points [((0:ℚ), (0:ℚ)), (10, 0), (4, 0)] 9).map
      (fun c => (c.x, c.y)) = [((2:ℚ), (0:ℚ)), (10, 0)] ∧
    merge_close_points [((2:ℚ), (0:ℚ)), (10, 0)] 9 = [⟨6, 0, 2⟩] ∧
    merge_close_points [((2:ℚ), (0:ℚ)), (10, 0)] 9 ≠
      [⟨2, 0, 2⟩, ⟨10, 0, 1⟩] := by decide

/-- C8 amended: re-running the deduplicator on the centroids it produced
yields those same centroids — each as a singleton cluster (the counts restart
at 1) — provided the produced centroids are pairwise farther apart than the
threshold; without that separation further merging can occur
(`C8_counterexample`). -/
theorem C8_amended_dedup_stable_when_separated (points : List (ℚ × ℚ))
    (min_dist : ℚ)
    (hsep : ((merge_close_points points min_dist).map fun c => (c.x, c.y)).Pairwise
      fun p q => min_dist^2 < (p.1 - q.1)^2 + (p.2 - q.2)^2) :
    merge_close_points
        ((merge_close_points points min_dist).map fun c => (c.x, c.y)) min_dist =
      (merge_close_points points min_dist).map fun c => Cluster.mk c.x c.y 1 := by
  rw [merge_close_points_of_separated _ _ hsep, List.map_map]
  rfl

/-- Witness for C8 amended: two points 10 apart with threshold 9 stay two
separated singleton clusters, and re-merging their centroids reproduces
them. -/
theorem C8_amended_dedup_stable_when_separated_witness :
    merge_close_points
        ((merge_close_points [((0:ℚ), (0:ℚ)), (10, 0)] 9).map
          fun c => (c.x, c.y)) 9 =
      (merge_close_points [((0:ℚ), (0:ℚ)), (10, 0)] 9).map
        fun c => Cluster.mk c.x c.y 1 :=
  C8_amended_dedup_stable_when_separated [((0:ℚ), (0:ℚ)), (10, 0)] 9 (by decide)

/-- C4 counterexample: the final sort uses only `|ringScore − 10|` and is
stable, so ties are NOT broken by decimal score.  Two 9-ring shots arriving
with decimal scores 9.0 then 9.4 are emitted in arrival order, violating the
claimed tie-break ordering (which demands the 9.4 shot first). -/
theorem C4_counterexample :
    limit_shots (sortShotsByTen [nineRingLowDecimal, nineRingHighDecimal])
        MAX_SHOTS_PER_TARGET = [nineRingLowDecimal, nineRingHighDecimal] ∧
    ¬ (limit_shots (sortShotsByTen [nineRingLowDecimal, nineRingHighDecimal])
        MAX_SHOTS_PER_TARGET).Pairwise specClaimedShotOrder := by decide

/-- C4 amended: the final list is the stable sort of the scored shots by
ascending `|ringScore − 10|` alone (no decimal tie-break), truncated to at
most 15; when more than 15 raw shots exist the result has exactly 15 entries,
is ordered by that key, and every kept entry is at least as close to a
perfect score under that key as every discarded entry. -/
theorem C4_amended_sort_and_cap (shots : List Shot)
    (h : MAX_SHOTS_PER_TARGET < shots.length) :
    (limit_shots (sortShotsByTen shots) MAX_SHOTS_PER_TARGET).length =
        MAX_SHOTS_PER_TARGET ∧
    (limit_shots (sortShotsByTen shots) MAX_SHOTS_PER_TARGET).Pairwise
        shotSortKeyLE ∧
    ∀ a ∈ limit_shots (sortShotsByTen shots) MAX_SHOTS_PER_TARGET,
      ∀ b ∈ (sortShotsByTen shots).drop MAX_SHOTS_PER_TARGET, shotSortKeyLE a b := by
  have hlen : (sortShotsByTen shots).length = shots.length :=
    (List.perm_insertionSort shotSortKeyLE shots).length_eq
  have hgt : MAX_SHOTS_PER_TARGET < (sortShotsByTen shots).length := by omega
  have hsorted : (sortShotsByTen shots).Pairwise shotSortKeyLE :=
    List.sorted_insertionSort shotSortKeyLE shots
  have hlimit : limit_shots (sortShotsByTen shots) MAX_SHOTS_PER_TARGET =
      (sortShotsByTen shots).take MAX_SHOTS_PER_TARGET := by
    unfold limit_shots
    rw [if_neg (by omega)]
  refine ⟨?_, ?_, ?_⟩
  · rw [hlimit, List.length_take]
    omega
  · rw [hlimit]
    exact hsorted.sublist (List.take_sublist _ _)
  · intro a ha b hb
    rw [hlimit] at ha
    have hsplit := hsorted
    rw [← List.take_append_drop MAX_SHOTS_PER_TARGET (sortShotsByTen shots),
      List.pairwise_append] at hsplit
    exact hsplit.2.2 a ha b hb

/-- Witness for C4 amended at a concrete 16-element input. -/
theorem C4_amended_sort_and_cap_witness :
    (limit_shots (sortShotsByTen (List.replicate 16 nineRingLowDecimal))
        MAX_SHOTS_PER_TARGET).length = MAX_SHOTS_PER_TARGET ∧
    (limit_shots (sortShotsByTen (List.replicate 16 nineRingLowDecimal))
        MAX_SHOTS_PER_TARGET).Pairwise shotSortKeyLE ∧
    ∀ a ∈ limit_shots (sortShotsByTen (List.replicate 16 nineRingLowDecimal))
        MAX_SHOTS_PER_TARGET,
      ∀ b ∈ (sortShotsByTen (List.replicate 16 nineRingLowDecimal)).drop
          MAX_SHOTS_PER_TARGET, shotSortKeyLE a b :=
  C4_amended_sort_and_cap (List.replicate 16 nineRingLowDecimal) (by decide)

/-- `pyMinBy` returns an element of the list it scans. -/
lemma pyMinBy_mem {α : Type} (key : α → ℚ) (x : α) (xs : List α) :
    pyMinBy key x xs ∈ x :: xs := by
  induction xs generalizing x with
  | nil => simp [pyMinBy]
  | cons y ys ih =>
      rw [pyMinBy]
      by_cases hk : key y < key x
      · rw [if_pos hk]
        rcases List.mem_cons.mp (ih y) with h | h
        · rw [h]
          exact List.mem_cons_of_mem _ (List.mem_cons_self y ys)
        · exact List.mem_cons_of_mem _ (List.mem_cons_of_mem _ h)
      · rw [if_neg hk]
        rcases List.mem_cons.mp (ih x) with h | h
        · rw [h]
          exact List.mem_cons_self x (y :: ys)
        · exact List.mem_cons_of_mem _ (List.mem_cons_of_mem _ h)

/-- `pyMinBy` attains the minimal key over the scanned list. -/
lemma pyMinBy_min {α : Type} (key : α → ℚ) (x : α) (xs : List α) :
    ∀ z ∈ x :: xs, key (pyMinBy key x xs) ≤ key z := by
  induction xs generalizing x with
  | nil =>
      intro z hz
      obtain rfl : z = x := by simpa using hz
      simp [pyMinBy]
  | cons y ys ih =>
      intro z hz
      rw [pyMinBy]
      by_cases hk : key y < key x
      · rw [if_pos hk]
        have hy : key (pyMinBy key y ys) ≤ key y := ih y y (List.mem_cons_self y ys)
        rcases List.mem_cons.mp hz with h | hz'
        · rw [h]
          exact le_trans hy hk.le
        · rcases List.mem_cons.mp hz' with h | h
          · rw [h]
            exact hy
          · exact ih y z (List.mem_cons_of_mem _ h)
      · rw [if_neg hk]
        have hx : key (pyMinBy key x ys) ≤ key x := ih x x (List.mem_cons_self x ys)
        rcases List.mem_cons.mp hz with h | hz'
        · rw [h]
          exact hx
        · rcases List.mem_cons.mp hz' with h | h
          · rw [h]
            exact le_trans hx (not_lt.mp hk)
          · exact ih x z (List.mem_cons_of_mem _ h)

/-- C5 counterexample: when the primary Hough helper returns more than one
candidate circle, `detect_target_circle` keeps `circles[0][0]` — the first
candidate — not the one closest to the image centre.  In a 100×100 image with
candidates `(0,0,30)` and `(50,50,30)` the locator picks `(0,0,30)` although
`(50,50,30)` sits exactly at the image centre. -/
theorem C5_counterexample :
    locateTarget 100 100 [(0, 0, 30), (50, 50, 30)] [] = (0, 0, 30) ∧
    circleDistKey 100 100 (50, 50, 30) < circleDistKey 100 100 (0, 0, 30) := by
  constructor
  · rfl
  · show (0:ℚ)^2 + 0^2 < 2500 + 2500
    norm_num

/-- C5 amended: the primary helper always returns its first candidate
(whatever the distances); the closest-to-centre selection happens only on the
legacy fallback path, taken when the primary helper found no circle — there
the chosen circle is one of the legacy candidates and minimises the squared
pixel distance to the image centre over all of them. -/
theorem C5_amended_closest_only_in_legacy (w h : ℤ) (p : PixCircle)
    (ps : List PixCircle) (c : PixCircle) (cs : List PixCircle) :
    locateTarget w h (p :: ps) (c :: cs) =
      ((p.1 : ℚ), (p.2.1 : ℚ), (p.2.2 : ℚ)) ∧
    pyMinBy (circleDistKey w h) c cs ∈ c :: cs ∧
    locateTarget w h [] (c :: cs) =
      (((pyMinBy (circleDistKey w h) c cs).1 : ℚ),
       ((pyMinBy (circleDistKey w h) c cs).2.1 : ℚ),
       ((pyMinBy (circleDistKey w h) c cs).2.2 : ℚ)) ∧
    ∀ z ∈ c :: cs,
      circleDistKey w h (pyMinBy (circleDistKey w h) c cs) ≤ circleDistKey w h z := by
  exact ⟨rfl, pyMinBy_mem _ c cs, rfl, pyMinBy_min _ c cs⟩

/-- For targets of radius at least 240 px, the marker filter's upper area
bound `2.5 · π · pellet²` is strictly below 60% of the target's circular
area `π · r²`. -/
lemma marker_max_area_lt_sixty_percent (target_r : ℚ) (hr : 240 ≤ target_r) :
    marker_max_area target_r < npPi * target_r^2 * (6/10) := by
  have h40 : (6:ℚ) ≤ target_r * (25/1000) := by linarith
  have hfl : pyInt (target_r * (25/1000)) = ⌊target_r * (25/1000)⌋ := by
    unfold pyInt
    rw [if_pos (by linarith)]
  have h6 : (6:ℤ) ≤ ⌊target_r * (25/1000)⌋ := Int.le_floor.mpr (by exact_mod_cast h40)
  have hest : estimate_pellet_radius_px target_r = ⌊target_r * (25/1000)⌋ := by
    unfold estimate_pellet_radius_px
    rw [hfl]
    exact max_eq_right h6
  have hple : ((⌊target_r * (25/1000)⌋ : ℤ) : ℚ) ≤ target_r * (25/1000) :=
    Int.floor_le _
  have hppos : (0:ℚ) ≤ ((⌊target_r * (25/1000)⌋ : ℤ) : ℚ) := by
    have : (0:ℤ) ≤ ⌊target_r * (25/1000)⌋ := by omega
    exact_mod_cast this
  have hp2 : ((⌊target_r * (25/1000)⌋ : ℤ) : ℚ)^2 ≤ (target_r * (25/1000))^2 :=
    pow_le_pow_left₀ hppos hple 2
  have hpi : (0:ℚ) < npPi := by norm_num [npPi]
  have hr0 : (0:ℚ) < target_r := by linarith
  unfold marker_max_area expected_marker_area
  rw [hest]
  nlinarith [mul_pos hpi (mul_pos hr0 hr0), mul_le_mul_of_nonneg_left hp2 hpi.le]

/-- C6 counterexample: `detect_markers_using_white` has no whole-mask sanity
check — a blob covering 70% of the target's circular area (far above the
claimed 60% cut-off, and the largest blob present) does not empty the result:
the regular marker beside it is still returned. -/
theorem C6_counterexample :
    npPi * 400^2 * (6/10) < oversizedBlob.area ∧
    regularMarker.area < oversizedBlob.area ∧
    detect_markers_using_white (fun _ _ => 0) 0 0 400 [oversizedBlob, regularMarker] =
      [markerShot (fun _ _ => 0) 0 0 400 regularMarker] ∧
    detect_markers_using_white (fun _ _ => 0) 0 0 400 [oversizedBlob, regularMarker] ≠
      [] := by decide

/-- C6 amended: there is no whole-mask discard in the marker strategy.
Instead, on targets of radius ≥ 240 px, any single blob whose area exceeds
60% of the target's circular area is rejected *individually* by the contour
area filter (its area exceeds `2.5 ×` the expected marker area), leaving the
remaining blobs' shots unchanged — the strategy result is empty only when no
blob at all passes the filter. -/
theorem C6_oversized_blob_rejected_individually (norm : ℚ → ℚ → ℚ)
    (cx cy target_r : ℚ) (hr : 240 ≤ target_r) (c : Contour)
    (rest : List Contour) (hbig : npPi * target_r^2 * (6/10) < c.area) :
    detect_markers_using_white norm cx cy target_r (c :: rest) =
      detect_markers_using_white norm cx cy target_r rest := by
  have hdrop : markerStep norm cx cy target_r c = none := by
    unfold markerStep
    rw [if_pos]
    exact Or.inr (lt_trans (marker_max_area_lt_sixty_percent target_r hr) hbig)
  unfold detect_markers_using_white
  rw [if_neg (List.cons_ne_nil c rest), List.filterMap_cons_none hdrop]
  by_cases hrest : rest = []
  · subst hrest
    simp
  · rw [if_neg hrest]

/-- Witness for C6 amended: the oversized blob of the counterexample is
dropped individually, the rest of the contour list scoring unchanged. -/
theorem C6_oversized_blob_rejected_individually_witness :
    detect_markers_using_white (fun _ _ => 0) 0 0 400 [oversizedBlob, regularMarker] =
      detect_markers_using_white (fun _ _ => 0) 0 0 400 [regularMarker] :=
  C6_oversized_blob_rejected_individually (fun _ _ => 0) 0 0 400 (by norm_num)
    oversizedBlob [regularMarker] (by decide)

end DetectShots
